import Mathlib

/-!
# Verification of the beads_viewer multi-project core

Shallow embedding of the beads_viewer repository:

* `Config` — the saved-projects configuration service
  (`pkg/config/projects.go`).
* `UI` — the project-manager overlay state machine
  (`pkg/ui` project manager model).
* `Core` — the multi-project namespace resolver, graph merger,
  layering engine and triage engine.  The Go sources of the core are not
  part of this repository slice (only their e2e tests are), so the
  `Core` definitions are modelled from the specification text.

Machine integers are modelled as `Int`/`Nat`; Go slices as `List`;
fallible operations as `Except`/`Option`.
-/

namespace BV

/-! ## Configuration service (`pkg/config/projects.go`) -/

namespace Config

/-- Embeds `config.ProjectEntry`: one saved project.  The Go field
`Enabled *bool` (a nullable pointer) is `Option Bool`. -/
structure ProjectEntry where
  name : String
  path : String
  enabled : Option Bool
deriving DecidableEq

/-- Embeds `(*ProjectEntry).IsEnabled`: nil pointer means enabled. -/
def ProjectEntry.isEnabled (p : ProjectEntry) : Bool :=
  match p.enabled with
  | none => true
  | some b => b

/-- Embeds `config.ProjectsConfig`. -/
structure ProjectsConfig where
  projects : List ProjectEntry
deriving DecidableEq

/-- Embeds `(*ProjectsConfig).EnabledPaths`: the Go loop appends
`p.Path` for each enabled entry, in list order. -/
def ProjectsConfig.enabledPaths (c : ProjectsConfig) : List String :=
  c.projects.foldl (fun acc p => if p.isEnabled then acc ++ [p.path] else acc) []

/-- Outcome of `os.ReadFile` at one path: the file's bytes, a
does-not-exist error, or another I/O error. -/
inductive ReadResult where
  | found (data : String)
  | notExist
  | ioError (msg : String)
deriving DecidableEq

/-- Embeds `config.LoadProjectsFrom`.  The filesystem is abstracted as
a map `fs` from paths to `ReadResult`, and YAML unmarshalling as a
function `parse` that may fail.  A missing file yields an empty config
and no error; any other read error is returned. -/
def loadProjectsFrom (fs : String → ReadResult)
    (parse : String → Except String ProjectsConfig) (path : String) :
    Except String ProjectsConfig :=
  match fs path with
  | ReadResult.found data => parse data
  | ReadResult.notExist => Except.ok ⟨[]⟩
  | ReadResult.ioError e => Except.error e

/-- Outcome of `os.Remove` at one path. -/
inductive RemoveResult where
  | removed
  | notExist
  | ioError (msg : String)
deriving DecidableEq

/-- Embeds `config.ClearProjects`: `os.Remove` errors are suppressed
when the file was already absent.  `none` is Go's nil error. -/
def clearProjects (rm : String → RemoveResult) (path : String) : Option String :=
  match rm path with
  | RemoveResult.removed => none
  | RemoveResult.notExist => none
  | RemoveResult.ioError e => some e

end Config

/-! ## Project-manager overlay (`pkg/ui` project manager model) -/

namespace UI

/-- Embeds the UI `ProjectEntry` (name, path, namespace token, issue
count, active flag). -/
structure PMEntry where
  name : String
  path : String
  pfx : String
  issueCount : Int
  isActive : Bool
deriving DecidableEq

/-- Embeds `ProjectManagerModel`, restricted to the fields the list
operations read or write (`projects`, `selectedIndex`, `addMode`); the
rendering-only fields (text input, theme, width, height, error
message) are omitted.  Go's `int` index is `Int`. -/
structure ProjectManagerModel where
  projects : List PMEntry
  selectedIndex : Int
  addMode : Bool
deriving DecidableEq

/-- Embeds `NewProjectManagerModel`: empty list, index 0, not in add
mode. -/
def newProjectManagerModel : ProjectManagerModel :=
  { projects := [], selectedIndex := 0, addMode := false }

/-- Embeds `(*ProjectManagerModel).SetProjects`: replace the list, then
clamp the index from above, then from below. -/
def setProjects (m : ProjectManagerModel) (ps : List PMEntry) : ProjectManagerModel :=
  let sel1 : Int :=
    if m.selectedIndex ≥ (ps.length : Int) then (ps.length : Int) - 1 else m.selectedIndex
  let sel2 : Int := if sel1 < 0 then 0 else sel1
  { m with projects := ps, selectedIndex := sel2 }

/-- Embeds `(*ProjectManagerModel).MoveUp`. -/
def moveUp (m : ProjectManagerModel) : ProjectManagerModel :=
  if m.addMode then m
  else if m.selectedIndex > 0 then { m with selectedIndex := m.selectedIndex - 1 }
  else m

/-- Embeds `(*ProjectManagerModel).MoveDown`. -/
def moveDown (m : ProjectManagerModel) : ProjectManagerModel :=
  if m.addMode then m
  else if m.selectedIndex < (m.projects.length : Int) - 1 then
    { m with selectedIndex := m.selectedIndex + 1 }
  else m

/-- Embeds `(*ProjectManagerModel).ToggleActive`. -/
def toggleActive (m : ProjectManagerModel) : ProjectManagerModel :=
  if m.addMode ∨ m.projects = [] then m
  else if 0 ≤ m.selectedIndex ∧ m.selectedIndex < (m.projects.length : Int) then
    match m.projects.get? m.selectedIndex.toNat with
    | some e =>
        { m with projects := m.projects.set m.selectedIndex.toNat { e with isActive := !e.isActive } }
    | none => m
  else m

/-- Embeds `(*ProjectManagerModel).SelectedProject` (`none` is Go's
nil). -/
def selectedProject (m : ProjectManagerModel) : Option PMEntry :=
  if m.projects = [] ∨ m.selectedIndex < 0 ∨ m.selectedIndex ≥ (m.projects.length : Int) then
    none
  else m.projects.get? m.selectedIndex.toNat

/-- Embeds `(*ProjectManagerModel).RemoveSelected`: delete the selected
entry, then pull the index back when it fell off the end. -/
def removeSelected (m : ProjectManagerModel) : ProjectManagerModel :=
  if m.projects = [] ∨ m.selectedIndex < 0 ∨ m.selectedIndex ≥ (m.projects.length : Int) then
    m
  else
    let ps := m.projects.eraseIdx m.selectedIndex.toNat
    let m1 : ProjectManagerModel := { m with projects := ps }
    if m1.selectedIndex ≥ (ps.length : Int) ∧ m1.selectedIndex > 0 then
      { m1 with selectedIndex := m1.selectedIndex - 1 }
    else m1

/-- Embeds `(*ProjectManagerModel).AddProject` (Go `append`). -/
def addProject (m : ProjectManagerModel) (e : PMEntry) : ProjectManagerModel :=
  { m with projects := m.projects ++ [e] }

/-- One call of the project-manager list API. -/
inductive PMOp where
  | setProjects (ps : List PMEntry)
  | moveUp
  | moveDown
  | toggleActive
  | addProject (e : PMEntry)
  | removeSelected

/-- Apply one operation. -/
def applyOp (m : ProjectManagerModel) : PMOp → ProjectManagerModel
  | PMOp.setProjects ps => setProjects m ps
  | PMOp.moveUp => moveUp m
  | PMOp.moveDown => moveDown m
  | PMOp.toggleActive => toggleActive m
  | PMOp.addProject e => addProject m e
  | PMOp.removeSelected => removeSelected m

/-- Apply a call sequence in order. -/
def applyOps (m : ProjectManagerModel) (ops : List PMOp) : ProjectManagerModel :=
  ops.foldl applyOp m

/-- The selection invariant: the index is non-negative, is 0 on an
empty list, and is in range on a non-empty list. -/
def pmInv (m : ProjectManagerModel) : Prop :=
  0 ≤ m.selectedIndex ∧
    (m.projects.length = 0 → m.selectedIndex = 0) ∧
    (0 < m.projects.length → m.selectedIndex < (m.projects.length : Int))

end UI

/-! ## The multi-project core

The namespace resolver, graph merger, layering engine and triage
engine.  Their Go sources are not in this repository slice (only the
e2e tests that drive the built binary are), so every definition in
this namespace is modelled from the specification text, as flagged in
its doc comment.  The spec's `Prefix` is rendered `pfx` here. -/

namespace Core

/-- The character of one decimal digit. -/
def digitChar (d : Nat) : Char :=
  Char.ofNat (48 + d)

/-- Big-endian decimal digits, by structural recursion on a fuel bound
(any fuel above the number itself gives the digits). -/
def natDigitsAux : Nat → Nat → List Char
  | 0, _ => []
  | fuel + 1, n =>
      if n < 10 then [digitChar n]
      else natDigitsAux fuel (n / 10) ++ [digitChar (n % 10)]

/-- Big-endian decimal digits of a natural number (the digits of Go's
`%d` formatting). -/
def natDigits (n : Nat) : List Char :=
  natDigitsAux (n + 1) n

/-- Lowercase one character (ASCII range). -/
def lowerChar (c : Char) : Char :=
  if 65 ≤ c.toNat ∧ c.toNat ≤ 90 then Char.ofNat (c.toNat + 32) else c

/-- Modelled from the spec (§4.1): lowercasing of a directory name,
character by character. -/
def lowerStr (s : String) : String :=
  String.mk (s.data.map lowerChar)

/-- Modelled from the spec (§4.1): the namespace token for base token
`base` on its `k`-th reuse — `base` itself when `k = 0`, otherwise
`base_k` with `k` in decimal. -/
def mkPfx (base : String) (k : Nat) : String :=
  if k = 0 then base else base ++ "_" ++ String.mk (natDigits k)

/-- Modelled from the spec (§4.1, NamespaceRegistry): assign tokens in
load order; `processed` is the list of lowercased base tokens already
consumed, and the registry count for a base is its number of prior
uses. -/
def pfxsFrom (processed : List String) : List String → List String
  | [] => []
  | d :: ds =>
      mkPfx (lowerStr d) (processed.count (lowerStr d)) ::
        pfxsFrom (processed ++ [lowerStr d]) ds

/-- Modelled from the spec (§4.1, Namespace Resolver): the namespace
tokens for an ordered list of project directory names.  Base token =
lowercased directory name; first use keeps the base, the `k`-th reuse
gets suffix `_k`. -/
def assignPfxs (dirs : List String) : List String :=
  pfxsFrom [] dirs

/-- Modelled from the spec (§3): issue status; only `closed` versus
non-closed matters to the engine.  `open` is a Lean keyword, hence
`open_`. -/
inductive Status where
  | open_
  | inProgress
  | blocked
  | closed
  | other (s : String)
deriving DecidableEq

/-- Modelled from the spec (§3): dependency-edge kind; only `blocks`
matters to planning. -/
inductive DepKind where
  | blocks
  | related
  | other (s : String)
deriving DecidableEq

/-- Modelled from the spec (§3): one `DependencyEdge`. -/
structure DepEdge where
  dependsOnID : String
  kind : DepKind
deriving DecidableEq

/-- Modelled from the spec (§3): an issue as loaded by the store
adapter, before namespacing. -/
structure RawIssue where
  id : String
  title : String
  status : Status
  priority : Int
  deps : List DepEdge
deriving DecidableEq

/-- Modelled from the spec (§3): a project is its directory name (the
last path component) plus its loaded issues. -/
structure Project where
  dir : String
  issues : List RawIssue
deriving DecidableEq

/-- Modelled from the spec (§4.1): pair each project with its assigned
namespace token, in load order. -/
def namespacedProjects (ps : List Project) : List (String × Project) :=
  (assignPfxs (ps.map Project.dir)).zip ps

/-- Modelled from the spec (§4.2): a raw dependency value matches the
known final ID format when it equals `otherPfx-otherOriginalID` for
some loaded project and one of that project's issues. -/
def knownFinalID (nps : List (String × Project)) (raw : String) : Bool :=
  nps.any fun pq => pq.2.issues.any fun o => raw == pq.1 ++ "-" ++ o.id

/-- Modelled from the spec (§4.2): the dependency-ID rewrite for an
edge of a project with token `pfx` — already-final references stay,
everything else is treated as intra-project and gets the project's
token. -/
def rewriteDep (nps : List (String × Project)) (pfx : String) (raw : String) : String :=
  if knownFinalID nps raw then raw else pfx ++ "-" ++ raw

/-- Modelled from the spec (§3, MergedUniverse): an issue of the
merged universe, carrying its project's namespace token and its final
ID. -/
structure UIssue where
  pfx : String
  id : String
  title : String
  status : Status
  priority : Int
  deps : List DepEdge
deriving DecidableEq

/-- Modelled from the spec (§4.1–4.2, Graph Merger): namespace every
project, rewrite each issue's ID to `pfx-originalID` and each
dependency reference by `rewriteDep`, and concatenate in load order. -/
def mergeProjects (ps : List Project) : List UIssue :=
  (namespacedProjects ps).flatMap fun pq =>
    pq.2.issues.map fun i =>
      { pfx := pq.1
        id := pq.1 ++ "-" ++ i.id
        title := i.title
        status := i.status
        priority := i.priority
        deps := i.deps.map fun e => { e with dependsOnID := rewriteDep (namespacedProjects ps) pq.1 e.dependsOnID } }

/-- Modelled from the spec (§4.2): the repo filter restricts the
output universe to issues whose namespace token equals the filter
token; no token means no restriction. -/
def filterUniverse (tok : Option String) (u : List UIssue) : List UIssue :=
  match tok with
  | none => u
  | some x => u.filter fun i => i.pfx == x

/-- Look an issue up by final ID in a universe. -/
def lookupIssue (u : List UIssue) (id : String) : Option UIssue :=
  u.find? fun i => i.id == id

/-- Modelled from the spec (§4.2–4.3): a dependency edge is an open
blocking edge when it is `blocks`-kind and resolves to a non-closed
issue of the universe; edges to closed issues and dangling references
are satisfied. -/
def depOpen (u : List UIssue) (e : DepEdge) : Bool :=
  decide (e.kind = DepKind.blocks) &&
    (match lookupIssue u e.dependsOnID with
     | some d => decide (¬ d.status = Status.closed)
     | none => false)

/-- The final IDs of an issue's open blocking dependencies, resolved
against the full universe `u`. -/
def openBlockingDeps (u : List UIssue) (i : UIssue) : List String :=
  (i.deps.filter (depOpen u)).map DepEdge.dependsOnID

/-- Modelled from the spec (§4.4): an issue is blocked when it has at
least one open blocking dependency in the full universe. -/
def isBlocked (full : List UIssue) (i : UIssue) : Bool :=
  !(openBlockingDeps full i).isEmpty

/-- Modelled from the spec (§3, TriageResult): the aggregate scalars
of the triage quick reference used by the claims. -/
structure QuickRef where
  openCount : Nat
  blockedCount : Nat
deriving DecidableEq

/-- Modelled from the spec (§4.4): the accumulation step of the triage
pass — bump the open count unless the issue is closed, bump the
blocked count when it is blocked in the full universe. -/
def triageStep (full : List UIssue) (qr : QuickRef) (i : UIssue) : QuickRef :=
  { openCount := qr.openCount + (if i.status = Status.closed then 0 else 1)
    blockedCount := qr.blockedCount + (if isBlocked full i then 1 else 0) }

/-- Modelled from the spec (§4.4, Triage Engine): one pass over the
filtered universe accumulating the open and blocked counts; the
blocked determination resolves dependencies against the full
universe. -/
def computeTriage (full : List UIssue) (tok : Option String) : QuickRef :=
  (filterUniverse tok full).foldl (triageStep full) ⟨0, 0⟩

/-- Lexicographic byte-wise order on character lists (Go's string
order). -/
def lexLE : List Char → List Char → Bool
  | [], _ => true
  | _ :: _, [] => false
  | c :: cs, d :: ds =>
      if c.toNat < d.toNat then true
      else if d.toNat < c.toNat then false
      else lexLE cs ds

/-- Go's `<=` on strings: lexicographic on the bytes. -/
def strLE (a b : String) : Bool :=
  lexLE a.data b.data

/-- Modelled from the spec (§4.3): the deterministic in-track order —
priority first, final ID as tie-break. -/
def trackLE (a b : UIssue) : Prop :=
  a.priority < b.priority ∨ (a.priority = b.priority ∧ strLE a.id b.id = true)

instance : DecidableRel trackLE := fun a b =>
  inferInstanceAs (Decidable
    (a.priority < b.priority ∨ (a.priority = b.priority ∧ strLE a.id b.id = true)))

/-- Sort one track by `trackLE`. -/
def sortTrack (t : List UIssue) : List UIssue :=
  t.insertionSort trackLE

/-- An issue is ready once every open blocking dependency has already
been assigned to an earlier layer. -/
def readyIn (u : List UIssue) (assigned : List String) (i : UIssue) : Bool :=
  (openBlockingDeps u i).all fun d => decide (d ∈ assigned)

/-- Modelled from the spec (§4.3, residual-graph DFS): the first open
blocking dependency of `x` that still lies in the residual set `R`. -/
def nextDep (u R : List UIssue) (x : String) : Option String :=
  match lookupIssue R x with
  | some i => (openBlockingDeps u i).find? fun d => (lookupIssue R d).isSome
  | none => none

/-- Walk `nextDep` from `x` through the residual set until an ID
repeats; the reported cycle is the repeated ID followed by the walked
segment back to it.  `path` holds the visited IDs, most recent
first. -/
def cycleWalk (u R : List UIssue) : Nat → List String → String → List String
  | 0, _, _ => []
  | _fuel + 1, path, x =>
      if x ∈ path then x :: (path.takeWhile fun y => y ≠ x).reverse
      else
        match nextDep u R x with
        | some y => cycleWalk u R _fuel (x :: path) y
        | none => []

/-- Modelled from the spec (§4.3): report a concrete cycle of the
residual set, found by walking open blocking dependencies. -/
def extractCycle (u R : List UIssue) : List String :=
  match R with
  | [] => []
  | x :: _ => cycleWalk u R (R.length + 1) [] x.id

/-- Modelled from the spec (§4.3, Kahn's algorithm with layer
numbers): repeatedly peel the ready issues of the residual set `R`
into the next track; when nothing is ready but issues remain, fail
with the IDs of a concrete cycle.  `fuel` bounds the recursion and
never runs out when it starts at `R.length`. -/
def kahnGo (u : List UIssue) : Nat → List String → List UIssue →
    Except (List String) (List (List UIssue))
  | _, _, [] => Except.ok []
  | 0, _, R => Except.error (extractCycle u R)
  | fuel + 1, assigned, R =>
      let ready := R.filter (readyIn u assigned)
      if ready.isEmpty then Except.error (extractCycle u R)
      else
        match kahnGo u fuel (assigned ++ ready.map UIssue.id)
            (R.filter fun i => !readyIn u assigned i) with
        | Except.ok tracks => Except.ok (sortTrack ready :: tracks)
        | Except.error e => Except.error e

/-- Modelled from the spec (§4.3, Layering Engine): the execution plan
of a merged universe — ordered tracks, or a cycle error naming a
concrete cycle's issue IDs. -/
def computePlan (u : List UIssue) : Except (List String) (List (List UIssue)) :=
  kahnGo u u.length [] u

/-- Modelled from the spec (§4.2): under a repo filter the plan's
track membership is restricted to the filter token's issues, dropping
tracks left empty; layer computation itself ran on the full graph. -/
def restrictTracks (tok : Option String) (tracks : List (List UIssue)) : List (List UIssue) :=
  match tok with
  | none => tracks
  | some x => (tracks.map fun t => t.filter fun i => i.pfx == x).filter fun t => !t.isEmpty

/-- The plan as output under an optional repo filter. -/
def computePlanFiltered (tok : Option String) (u : List UIssue) :
    Except (List String) (List (List UIssue)) :=
  (computePlan u).map (restrictTracks tok)

/-- `b` is an open blocking dependency of `a` in universe `u` (both as
final IDs). -/
def blockingEdge (u : List UIssue) (a b : String) : Bool :=
  match lookupIssue u a with
  | some i => (openBlockingDeps u i).contains b
  | none => false

/-- Each element of the list has an open blocking dependency on its
successor. -/
def chainEdges (u : List UIssue) : List String → Bool
  | [] => true
  | [_] => true
  | a :: b :: rest => blockingEdge u a b && chainEdges u (b :: rest)

/-- `c` lists the issues of a directed cycle of open blocking edges:
nonempty, without repeats, each member has an open blocking dependency
on the next, and the last on the first. -/
def isDepCycle (u : List UIssue) (c : List String) : Prop :=
  c ≠ [] ∧ c.Nodup ∧ chainEdges u c = true ∧
    blockingEdge u (c.getLastD "") (c.headD "") = true

instance (u : List UIssue) (c : List String) : Decidable (isDepCycle u c) :=
  inferInstanceAs (Decidable (c ≠ [] ∧ c.Nodup ∧ chainEdges u c = true ∧
    blockingEdge u (c.getLastD "") (c.headD "") = true))

/-- Propositional equality on `Except` results is decidable. -/
instance {ε α : Type} [DecidableEq ε] [DecidableEq α] : DecidableEq (Except ε α) := fun x y =>
  match x, y with
  | Except.ok a, Except.ok b =>
      if h : a = b then isTrue (by rw [h]) else isFalse (fun hh => h (Except.ok.inj hh))
  | Except.error a, Except.error b =>
      if h : a = b then isTrue (by rw [h]) else isFalse (fun hh => h (Except.error.inj hh))
  | Except.ok _, Except.error _ => isFalse (fun hh => Except.noConfusion hh)
  | Except.error _, Except.ok _ => isFalse (fun hh => Except.noConfusion hh)

/-- `a`'s issue carries a `blocks`-kind edge to `b`, regardless of
`b`'s status or resolvability. -/
def blocksEdge (u : List UIssue) (a b : String) : Bool :=
  match lookupIssue u a with
  | some i => i.deps.any fun e => decide (e.kind = DepKind.blocks) && e.dependsOnID == b
  | none => false

/-- Each element of the list has a `blocks`-kind edge to its
successor. -/
def chainBlocks (u : List UIssue) : List String → Bool
  | [] => true
  | [_] => true
  | a :: b :: rest => blocksEdge u a b && chainBlocks u (b :: rest)

/-- `c` lists the issues of a directed cycle among `blocks`-kind edges
(irrespective of status), the cycle notion the claim under test
quantifies over. -/
def isBlocksCycle (u : List UIssue) (c : List String) : Prop :=
  c ≠ [] ∧ c.Nodup ∧ chainBlocks u c = true ∧
    blocksEdge u (c.getLastD "") (c.headD "") = true

instance (u : List UIssue) (c : List String) : Decidable (isBlocksCycle u c) :=
  inferInstanceAs (Decidable (c ≠ [] ∧ c.Nodup ∧ chainBlocks u c = true ∧
    blocksEdge u (c.getLastD "") (c.headD "") = true))

end Core

/-! ## Theorems

Helper lemmas first, then one theorem per claim (with a witness or a
counterexample where required).
-/

namespace Config

/-- The `EnabledPaths` loop computes filter-then-project, for any
starting accumulator. -/
theorem enabledPaths_foldl (ps : List ProjectEntry) (acc : List String) :
    ps.foldl (fun acc p => if p.isEnabled then acc ++ [p.path] else acc) acc =
      acc ++ (ps.filter (fun p => p.isEnabled)).map ProjectEntry.path := by
  induction ps generalizing acc with
  | nil => simp
  | cons p ps ih =>
      by_cases h : p.isEnabled <;> simp [List.foldl, h, ih, List.filter_cons]

end Config

namespace UI

theorem pmInv_new : pmInv newProjectManagerModel := by
  simp [pmInv, newProjectManagerModel]

theorem pmInv_setProjects (m : ProjectManagerModel) (ps : List PMEntry) :
    pmInv (setProjects m ps) := by
  unfold pmInv setProjects
  dsimp only
  split_ifs <;>
    exact ⟨by omega, fun h => by omega, fun h => by omega⟩

theorem pmInv_moveUp (m : ProjectManagerModel) (hm : pmInv m) : pmInv (moveUp m) := by
  obtain ⟨h0, he, hn⟩ := hm
  unfold pmInv moveUp
  rcases Nat.eq_zero_or_pos m.projects.length with hl | hl
  · have hsel := he hl
    split_ifs <;> refine ⟨?_, fun h => ?_, fun h => ?_⟩ <;>
      simp only at * <;> omega
  · have hsel := hn hl
    split_ifs <;> refine ⟨?_, fun h => ?_, fun h => ?_⟩ <;>
      simp only at * <;> omega

theorem pmInv_moveDown (m : ProjectManagerModel) (hm : pmInv m) : pmInv (moveDown m) := by
  obtain ⟨h0, he, hn⟩ := hm
  unfold pmInv moveDown
  rcases Nat.eq_zero_or_pos m.projects.length with hl | hl
  · have hsel := he hl
    split_ifs <;> refine ⟨?_, fun h => ?_, fun h => ?_⟩ <;>
      simp only at * <;> omega
  · have hsel := hn hl
    split_ifs <;> refine ⟨?_, fun h => ?_, fun h => ?_⟩ <;>
      simp only at * <;> omega

theorem pmInv_toggleActive (m : ProjectManagerModel) (hm : pmInv m) :
    pmInv (toggleActive m) := by
  obtain ⟨h0, he, hn⟩ := hm
  unfold pmInv toggleActive
  split_ifs with h1 h2
  · exact ⟨h0, he, hn⟩
  · cases hget : m.projects.get? m.selectedIndex.toNat with
    | none => exact ⟨h0, he, hn⟩
    | some e =>
        refine ⟨?_, fun h => ?_, fun h => ?_⟩ <;>
          simp only [List.length_set] at * <;> omega
  · exact ⟨h0, he, hn⟩

theorem pmInv_addProject (m : ProjectManagerModel) (e : PMEntry) (hm : pmInv m) :
    pmInv (addProject m e) := by
  obtain ⟨h0, he, hn⟩ := hm
  unfold pmInv addProject
  rcases Nat.eq_zero_or_pos m.projects.length with hl | hl
  · have hsel := he hl
    refine ⟨?_, fun h => ?_, fun h => ?_⟩ <;>
      simp only [List.length_append, List.length_cons, List.length_nil] at * <;> omega
  · have hsel := hn hl
    refine ⟨?_, fun h => ?_, fun h => ?_⟩ <;>
      simp only [List.length_append, List.length_cons, List.length_nil] at * <;> omega

theorem pmInv_removeSelected (m : ProjectManagerModel) (hm : pmInv m) :
    pmInv (removeSelected m) := by
  obtain ⟨h0, he, hn⟩ := hm
  unfold pmInv removeSelected
  by_cases hg : m.projects = [] ∨ m.selectedIndex < 0 ∨
      m.selectedIndex ≥ (m.projects.length : Int)
  · rw [if_pos hg]
    exact ⟨h0, he, hn⟩
  · rw [if_neg hg]
    push_neg at hg
    obtain ⟨hne, hge, hlt⟩ := hg
    have hpos : 0 < m.projects.length := List.length_pos.mpr hne
    have hlt2 : m.selectedIndex.toNat < m.projects.length := by omega
    have hlen : (m.projects.eraseIdx m.selectedIndex.toNat).length =
        m.projects.length - 1 := by
      simp [List.length_eraseIdx, hlt2]
    dsimp only
    split_ifs with h2 <;> refine ⟨?_, fun h => ?_, fun h => ?_⟩ <;>
      simp only [hlen] at * <;> omega

theorem pmInv_applyOp (m : ProjectManagerModel) (op : PMOp) (hm : pmInv m) :
    pmInv (applyOp m op) := by
  cases op with
  | setProjects ps => exact pmInv_setProjects m ps
  | moveUp => exact pmInv_moveUp m hm
  | moveDown => exact pmInv_moveDown m hm
  | toggleActive => exact pmInv_toggleActive m hm
  | addProject e => exact pmInv_addProject m e hm
  | removeSelected => exact pmInv_removeSelected m hm

theorem pmInv_applyOps (ops : List PMOp) (m : ProjectManagerModel) (hm : pmInv m) :
    pmInv (applyOps m ops) := by
  induction ops generalizing m with
  | nil => exact hm
  | cons op ops ih => exact ih (applyOp m op) (pmInv_applyOp m op hm)

theorem selectedProject_eq_none_iff (m : ProjectManagerModel) (hm : pmInv m) :
    selectedProject m = none ↔ m.projects = [] := by
  obtain ⟨h0, he, hn⟩ := hm
  unfold selectedProject
  split_ifs with h
  · rcases h with h | h | h
    · simp [h]
    · exact absurd h (by omega)
    · have hnil : m.projects = [] := by
        rcases Nat.eq_zero_or_pos m.projects.length with hl | hl
        · exact List.length_eq_zero.mp hl
        · exact absurd (hn hl) (by omega)
      simp [hnil]
  · push_neg at h
    obtain ⟨hne, hge, hlt⟩ := h
    simp only [List.get?_eq_none]
    constructor
    · intro hh; exact absurd hh (by omega)
    · intro hh; exact absurd hh hne

end UI

namespace Core

/-- The triage fold adds, to any starting accumulator, the number of
non-closed issues and the number of blocked issues of the traversed
list. -/
theorem triage_foldl (full : List UIssue) (l : List UIssue) (qr : QuickRef) :
    l.foldl (triageStep full) qr =
      ⟨qr.openCount + (l.filter fun i => !decide (i.status = Status.closed)).length,
       qr.blockedCount + (l.filter (isBlocked full)).length⟩ := by
  induction l generalizing qr with
  | nil => simp
  | cons i l ih =>
      rw [List.foldl_cons, ih]
      by_cases hc : i.status = Status.closed <;>
        by_cases hb : isBlocked full i <;>
          simp [triageStep, hc, hb, List.filter_cons] <;> omega

/-- The open count of the triage result counts the non-closed issues
of the filtered universe. -/
theorem computeTriage_openCount (full : List UIssue) (tok : Option String) :
    (computeTriage full tok).openCount =
      ((filterUniverse tok full).filter fun i => !decide (i.status = Status.closed)).length := by
  rw [computeTriage, triage_foldl]; simp

/-- The blocked count of the triage result counts the issues of the
filtered universe that are blocked in the full universe. -/
theorem computeTriage_blockedCount (full : List UIssue) (tok : Option String) :
    (computeTriage full tok).blockedCount =
      ((filterUniverse tok full).filter (isBlocked full)).length := by
  rw [computeTriage, triage_foldl]; simp

/-- Membership in a repo-filtered universe forces the namespace
token. -/
theorem mem_filterUniverse (u : List UIssue) (x : String) (i : UIssue)
    (h : i ∈ filterUniverse (some x) u) : i.pfx = x := by
  rw [filterUniverse, List.mem_filter] at h
  exact eq_of_beq h.2

/-- The digit fold is independent of the fuel, once the fuel exceeds
the number. -/
theorem natDigitsAux_stable (f : Nat) : ∀ n f', n < f → n < f' →
    natDigitsAux f n = natDigitsAux f' n := by
  induction f with
  | zero => intro n f' h; omega
  | succ f ih =>
      intro n f' hf hf'
      cases f' with
      | zero => omega
      | succ f' =>
          show natDigitsAux (f + 1) n = natDigitsAux (f' + 1) n
          rw [natDigitsAux, natDigitsAux]
          by_cases h10 : n < 10
          · rw [if_pos h10, if_pos h10]
          · rw [if_neg h10, if_neg h10]
            have hdiv : n / 10 < n := Nat.div_lt_self (by omega) (by omega)
            rw [ih (n / 10) f' (by omega) (by omega)]

/-- The defining recurrence of `natDigits`. -/
theorem natDigits_unfold (n : Nat) :
    natDigits n = if n < 10 then [digitChar n]
      else natDigits (n / 10) ++ [digitChar (n % 10)] := by
  rw [natDigits, natDigitsAux]
  by_cases h10 : n < 10
  · rw [if_pos h10, if_pos h10]
  · rw [if_neg h10, if_neg h10, natDigits]
    have hdiv : n / 10 < n := Nat.div_lt_self (by omega) (by omega)
    rw [natDigitsAux_stable n (n / 10) (n / 10 + 1) (by omega) (by omega)]

/-- A number always has at least one digit. -/
theorem natDigits_ne_nil (n : Nat) : natDigits n ≠ [] := by
  rw [natDigits_unfold]
  by_cases h10 : n < 10
  · rw [if_pos h10]; exact List.cons_ne_nil _ _
  · rw [if_neg h10]
    intro h
    exact absurd (List.append_eq_nil.mp h).2 (List.cons_ne_nil _ _)

/-- Decimal digit characters are pairwise distinct. -/
theorem digitChar_inj (d e : Nat) (hd : d < 10) (he : e < 10)
    (h : digitChar d = digitChar e) : d = e := by
  interval_cases d <;> interval_cases e <;> first | rfl | exact absurd h (by decide)

/-- A decimal digit character is never an underscore. -/
theorem digitChar_ne_underscore (d : Nat) (hd : d < 10) : digitChar d ≠ '_' := by
  interval_cases d <;> decide

/-- No underscore occurs among decimal digits. -/
theorem underscore_not_mem_natDigits (n : Nat) : ('_' : Char) ∉ natDigits n := by
  induction n using Nat.strong_induction_on with
  | _ n ih =>
      rw [natDigits_unfold]
      by_cases h10 : n < 10
      · rw [if_pos h10]
        intro h
        rcases List.mem_singleton.mp h with h
        exact digitChar_ne_underscore n h10 h.symm
      · rw [if_neg h10]
        intro h
        rcases List.mem_append.mp h with h | h
        · exact ih (n / 10) (Nat.div_lt_self (by omega) (by omega)) h
        · rcases List.mem_singleton.mp h with h
          exact digitChar_ne_underscore (n % 10) (by omega) h.symm

/-- Decimal digit lists determine the number. -/
theorem natDigits_inj (m : Nat) : ∀ n, natDigits m = natDigits n → m = n := by
  induction m using Nat.strong_induction_on with
  | _ m ih =>
      intro n h
      rw [natDigits_unfold m, natDigits_unfold n] at h
      by_cases hm : m < 10 <;> by_cases hn : n < 10
      · rw [if_pos hm, if_pos hn] at h
        exact digitChar_inj m n hm hn (List.cons.inj h).1
      · rw [if_pos hm, if_neg hn] at h
        have : ([digitChar m] : List Char).length = (natDigits (n / 10) ++ [digitChar (n % 10)]).length := by
          rw [h]
        rw [List.length_append, List.length_singleton, List.length_singleton] at this
        have := List.length_pos.mpr (natDigits_ne_nil (n / 10))
        omega
      · rw [if_neg hm, if_pos hn] at h
        have : (natDigits (m / 10) ++ [digitChar (m % 10)]).length = ([digitChar n] : List Char).length := by
          rw [h]
        rw [List.length_append, List.length_singleton, List.length_singleton] at this
        have := List.length_pos.mpr (natDigits_ne_nil (m / 10))
        omega
      · rw [if_neg hm, if_neg hn] at h
        have hlen : ([digitChar (m % 10)] : List Char).length = ([digitChar (n % 10)] : List Char).length := rfl
        obtain ⟨h1, h2⟩ := List.append_inj' h hlen
        have hdiv := ih (m / 10) (Nat.div_lt_self (by omega) (by omega)) (n / 10) h1
        have hmod := digitChar_inj (m % 10) (n % 10) (by omega) (by omega) (List.cons.inj h2).1
        omega

/-- Splitting two equal lists at a marker character that occurs in
neither left part: the parts agree. -/
theorem splitAtChar (c : Char) (l1 : List Char) : ∀ (l2 r1 r2 : List Char),
    c ∉ l1 → c ∉ l2 → l1 ++ c :: r1 = l2 ++ c :: r2 → l1 = l2 ∧ r1 = r2 := by
  induction l1 with
  | nil =>
      intro l2 r1 r2 _ hc2 h
      cases l2 with
      | nil => exact ⟨rfl, (List.cons.inj h).2⟩
      | cons x xs =>
          obtain ⟨hx, _⟩ := List.cons.inj h
          exact absurd (hx ▸ List.mem_cons_self x xs) hc2
  | cons y ys ih =>
      intro l2 r1 r2 hc1 hc2 h
      cases l2 with
      | nil =>
          obtain ⟨hy, _⟩ := List.cons.inj h
          exact absurd (hy ▸ List.mem_cons_self y ys) hc1
      | cons x xs =>
          obtain ⟨hy, ht⟩ := List.cons.inj h
          have := ih xs r1 r2 (fun hm => hc1 (List.mem_cons_of_mem y hm))
            (fun hm => hc2 (hy ▸ List.mem_cons_of_mem x hm)) ht
          exact ⟨by rw [hy, this.1], this.2⟩

/-- On underscore-free base tokens the namespace-token builder is
injective in both arguments. -/
theorem mkPfx_inj (b b2 : String) (k k2 : Nat)
    (hb : ('_' : Char) ∉ b.data) (hb2 : ('_' : Char) ∉ b2.data)
    (h : mkPfx b k = mkPfx b2 k2) : b = b2 ∧ k = k2 := by
  rw [mkPfx, mkPfx] at h
  by_cases hk : k = 0 <;> by_cases hk2 : k2 = 0
  · rw [if_pos hk, if_pos hk2] at h
    exact ⟨h, hk.trans hk2.symm⟩
  · rw [if_pos hk, if_neg hk2] at h
    have hd : b.data = b2.data ++ '_' :: natDigits k2 := by
      have := congrArg String.data h
      simpa [String.data_append] using this
    exact absurd (hd ▸ List.mem_append_right _ (List.mem_cons_self _ _)) hb
  · rw [if_neg hk, if_pos hk2] at h
    have hd : b2.data = b.data ++ '_' :: natDigits k := by
      have := congrArg String.data h.symm
      simpa [String.data_append] using this
    exact absurd (hd ▸ List.mem_append_right _ (List.mem_cons_self _ _)) hb2
  · rw [if_neg hk, if_neg hk2] at h
    have hd : b.data ++ '_' :: natDigits k = b2.data ++ '_' :: natDigits k2 := by
      have := congrArg String.data h
      simpa [String.data_append] using this
    obtain ⟨h1, h2⟩ := splitAtChar '_' b.data b2.data (natDigits k) (natDigits k2) hb hb2 hd
    exact ⟨String.ext h1, natDigits_inj k k2 h2⟩

/-- Token assignment is length-preserving. -/
theorem pfxsFrom_length (ds : List String) : ∀ pr, (pfxsFrom pr ds).length = ds.length := by
  induction ds with
  | nil => intro pr; rfl
  | cons d ds ih => intro pr; rw [pfxsFrom, List.length_cons, List.length_cons, ih]

/-- The token at index `i` is built from the lowercased name at index
`i` and its number of prior uses. -/
theorem pfxsFrom_get? (ds : List String) : ∀ pr i d, ds.get? i = some d →
    (pfxsFrom pr ds).get? i =
      some (mkPfx (lowerStr d) ((pr ++ (ds.take i).map lowerStr).count (lowerStr d))) := by
  induction ds with
  | nil => intro pr i d h; exact absurd h (by simp)
  | cons e es ih =>
      intro pr i d h
      cases i with
      | zero =>
          obtain rfl : e = d := by simpa using h
          simp [pfxsFrom]
      | succ i =>
          rw [List.get?_cons_succ] at h
          rw [pfxsFrom, List.get?_cons_succ, ih (pr ++ [lowerStr e]) i d h]
          simp [List.count_append]

/-- A token built with fewer uses than the register has already seen
cannot appear later in the assignment. -/
theorem mkPfx_not_mem_pfxsFrom (ds : List String) : ∀ pr (b : String) (k : Nat),
    ('_' : Char) ∉ b.data → (∀ d ∈ ds, ('_' : Char) ∉ (lowerStr d).data) →
    k < pr.count b → mkPfx b k ∉ pfxsFrom pr ds := by
  induction ds with
  | nil => intro pr b k _ _ _ h; exact absurd h (List.not_mem_nil _)
  | cons d ds ih =>
      intro pr b k hb hds hk h
      rcases List.mem_cons.mp h with h | h
      · obtain ⟨rfl, rfl⟩ := mkPfx_inj b (lowerStr d) k (pr.count (lowerStr d)) hb
          (hds d (List.mem_cons_self d ds)) h
        omega
      · refine ih (pr ++ [lowerStr d]) b k hb (fun e he => hds e (List.mem_cons_of_mem d he)) ?_ h
        rw [List.count_append]
        omega

/-- On underscore-free lowercased names the assigned tokens are
pairwise distinct. -/
theorem pfxsFrom_nodup (ds : List String) : ∀ pr,
    (∀ d ∈ ds, ('_' : Char) ∉ (lowerStr d).data) → (pfxsFrom pr ds).Nodup := by
  induction ds with
  | nil => intro pr _; exact List.nodup_nil
  | cons d ds ih =>
      intro pr hds
      rw [pfxsFrom, List.nodup_cons]
      constructor
      · refine mkPfx_not_mem_pfxsFrom ds (pr ++ [lowerStr d]) (lowerStr d) (pr.count (lowerStr d))
          (hds d (List.mem_cons_self d ds)) (fun e he => hds e (List.mem_cons_of_mem d he)) ?_
        rw [List.count_append]
        simp
      · exact ih (pr ++ [lowerStr d]) (fun e he => hds e (List.mem_cons_of_mem d he))

/-- Soundness of the layering loop when it returns tracks: ready
issues land in track 0; every residual issue lands in some track;
every track member comes from the residual set and has all its open
blocking dependencies among the already-assigned IDs or in strictly
earlier tracks; and the tracks partition the residual set. -/
theorem kahnGo_ok_sound (u : List UIssue) (fuel : Nat) :
    ∀ (assigned : List String) (R : List UIssue) (tracks : List (List UIssue)),
    R.length ≤ fuel →
    kahnGo u fuel assigned R = Except.ok tracks →
    ((∀ i ∈ R, readyIn u assigned i = true →
        ∃ h0 : 0 < tracks.length, i ∈ tracks.get ⟨0, h0⟩) ∧
     (∀ i ∈ R, ∃ k, ∃ hk : k < tracks.length, i ∈ tracks.get ⟨k, hk⟩) ∧
     (∀ k, ∀ hk : k < tracks.length, ∀ i ∈ tracks.get ⟨k, hk⟩,
        i ∈ R ∧ ∀ d ∈ openBlockingDeps u i,
          d ∈ assigned ∨ ∃ k2, ∃ hk2 : k2 < tracks.length, k2 < k ∧
            ∃ j ∈ tracks.get ⟨k2, hk2⟩, j.id = d) ∧
     List.Perm (tracks.flatMap (fun t => t)) R) := by
  induction fuel with
  | zero =>
      intro assigned R tracks hf h
      have hR : R = [] := List.eq_nil_of_length_eq_zero (by omega)
      subst hR
      rw [kahnGo] at h
      obtain rfl : ([] : List (List UIssue)) = tracks := Except.ok.inj h
      refine ⟨by simp, by simp, ?_, by simp⟩
      intro k hk
      simp at hk
  | succ fuel ih =>
      intro assigned R tracks hf h
      cases R with
      | nil =>
          rw [kahnGo] at h
          obtain rfl : ([] : List (List UIssue)) = tracks := Except.ok.inj h
          refine ⟨by simp, by simp, ?_, by simp⟩
          intro k hk
          simp at hk
      | cons r rs =>
          simp only [kahnGo] at h
          by_cases hre : ((r :: rs).filter (readyIn u assigned)).isEmpty
          · rw [if_pos hre] at h
            exact absurd h (fun hh => Except.noConfusion hh)
          · rw [if_neg hre] at h
            rw [Bool.not_eq_true] at hre
            cases hrec : kahnGo u fuel
                (assigned ++ ((r :: rs).filter (readyIn u assigned)).map UIssue.id)
                ((r :: rs).filter fun i => !readyIn u assigned i) with
            | error e =>
                rw [hrec] at h
                exact absurd h (fun hh => Except.noConfusion hh)
            | ok tracks' =>
                rw [hrec] at h
                obtain rfl : sortTrack ((r :: rs).filter (readyIn u assigned)) :: tracks'
                    = tracks := Except.ok.inj h
                obtain ⟨x, hxmem, hxready⟩ : ∃ x ∈ r :: rs, readyIn u assigned x = true := by
                  cases hfe : (r :: rs).filter (readyIn u assigned) with
                  | nil => rw [hfe] at hre; exact absurd hre (by simp)
                  | cons y ys =>
                      have hy : y ∈ (r :: rs).filter (readyIn u assigned) := by
                        rw [hfe]; exact List.mem_cons_self y ys
                      rw [List.mem_filter] at hy
                      exact ⟨y, hy.1, hy.2⟩
                have hf' : ((r :: rs).filter fun i => !readyIn u assigned i).length ≤ fuel := by
                  have : ((r :: rs).filter fun i => !readyIn u assigned i).length <
                      (r :: rs).length :=
                    List.length_filter_lt_length_iff_exists.mpr
                      ⟨x, hxmem, by simp [hxready]⟩
                  simp only [List.length_cons] at this hf ⊢
                  omega
                obtain ⟨IH1, IH2, IH3, IH4⟩ := ih _ _ tracks' hf' hrec
                have hperm : List.Perm (sortTrack ((r :: rs).filter (readyIn u assigned)))
                    ((r :: rs).filter (readyIn u assigned)) :=
                  List.perm_insertionSort trackLE _
                refine ⟨?_, ?_, ?_, ?_⟩
                · intro i hi hirdy
                  refine ⟨Nat.succ_pos _, ?_⟩
                  show i ∈ sortTrack ((r :: rs).filter (readyIn u assigned))
                  exact hperm.mem_iff.mpr (List.mem_filter.mpr ⟨hi, hirdy⟩)
                · intro i hi
                  by_cases hr : readyIn u assigned i = true
                  · refine ⟨0, Nat.succ_pos _, ?_⟩
                    show i ∈ sortTrack ((r :: rs).filter (readyIn u assigned))
                    exact hperm.mem_iff.mpr (List.mem_filter.mpr ⟨hi, hr⟩)
                  · have hi' : i ∈ (r :: rs).filter fun j => !readyIn u assigned j :=
                      List.mem_filter.mpr ⟨hi, by simp [hr]⟩
                    obtain ⟨k, hk, hmem⟩ := IH2 i hi'
                    exact ⟨k + 1, by simpa using Nat.succ_lt_succ hk, hmem⟩
                · intro k hk i hi
                  cases k with
                  | zero =>
                      have hi2 : i ∈ (r :: rs).filter (readyIn u assigned) :=
                        hperm.mem_iff.mp hi
                      rw [List.mem_filter] at hi2
                      refine ⟨hi2.1, fun d hd => Or.inl ?_⟩
                      have := List.all_eq_true.mp hi2.2 d hd
                      exact of_decide_eq_true this
                  | succ k =>
                      have hk' : k < tracks'.length := by
                        simpa using Nat.lt_of_succ_lt_succ hk
                      obtain ⟨hiR', hdeps⟩ := IH3 k hk' i hi
                      rw [List.mem_filter] at hiR'
                      refine ⟨hiR'.1, fun d hd => ?_⟩
                      rcases hdeps d hd with hda | ⟨k2, hk2, hk2lt, j, hjmem, hjid⟩
                      · rcases List.mem_append.mp hda with hda | hda
                        · exact Or.inl hda
                        · obtain ⟨j, hj, hjid⟩ := List.mem_map.mp hda
                          refine Or.inr ⟨0, Nat.succ_pos _, Nat.succ_pos _, j, ?_, hjid⟩
                          show j ∈ sortTrack ((r :: rs).filter (readyIn u assigned))
                          exact hperm.mem_iff.mpr hj
                      · exact Or.inr ⟨k2 + 1, by simpa using Nat.succ_lt_succ hk2,
                          Nat.succ_lt_succ hk2lt, j, hjmem, hjid⟩
                · simp only [List.flatMap_cons]
                  exact (hperm.append IH4).trans
                    (List.filter_append_perm (readyIn u assigned) (r :: rs))

/-- Within a plan whose flattened IDs have no repeats, an ID pins down
its track index. -/
theorem track_index_unique (tracks : List (List UIssue))
    (hnd : ((tracks.flatMap (fun t => t)).map UIssue.id).Nodup) :
    ∀ k1 k2 (h1 : k1 < tracks.length) (h2 : k2 < tracks.length) (j1 j2 : UIssue),
      j1 ∈ tracks.get ⟨k1, h1⟩ → j2 ∈ tracks.get ⟨k2, h2⟩ → j1.id = j2.id → k1 = k2 := by
  induction tracks with
  | nil => intro k1 k2 h1; simp at h1
  | cons t ts ih =>
      intro k1 k2 h1 h2 j1 j2 hj1 hj2 hid
      have hnd' : ((t.map UIssue.id) ++ ((ts.flatMap (fun t => t)).map UIssue.id)).Nodup := by
        simpa [List.flatMap_cons] using hnd
      rw [List.nodup_append] at hnd'
      cases k1 with
      | zero =>
          cases k2 with
          | zero => rfl
          | succ k2 =>
              exfalso
              have hj2' : j2 ∈ ts.flatMap (fun t => t) := by
                rw [List.mem_flatMap]
                exact ⟨ts.get ⟨k2, by simpa using Nat.lt_of_succ_lt_succ h2⟩,
                  List.get_mem ts _ _, hj2⟩
              exact hnd'.2.2 (List.mem_map_of_mem UIssue.id hj1)
                (hid ▸ List.mem_map_of_mem UIssue.id hj2')
      | succ k1 =>
          cases k2 with
          | zero =>
              exfalso
              have hj1' : j1 ∈ ts.flatMap (fun t => t) := by
                rw [List.mem_flatMap]
                exact ⟨ts.get ⟨k1, by simpa using Nat.lt_of_succ_lt_succ h1⟩,
                  List.get_mem ts _ _, hj1⟩
              exact hnd'.2.2 (List.mem_map_of_mem UIssue.id hj2)
                (hid ▸ List.mem_map_of_mem UIssue.id hj1')
          | succ k2 =>
              have := ih hnd'.2.1 k1 k2 (by simpa using Nat.lt_of_succ_lt_succ h1)
                (by simpa using Nat.lt_of_succ_lt_succ h2) j1 j2 hj1 hj2 hid
              omega

/-- A successful lookup returns a member carrying the looked-up ID. -/
theorem lookupIssue_eq_some (u : List UIssue) (a : String) (i : UIssue)
    (h : lookupIssue u a = some i) : i ∈ u ∧ i.id = a := by
  rw [lookupIssue] at h
  have h1 := List.mem_of_find?_eq_some h
  have h2 := List.find?_some h
  exact ⟨h1, eq_of_beq h2⟩

/-- An ID carried by some member is resolvable. -/
theorem lookupIssue_isSome (u : List UIssue) (x : String)
    (h : ∃ j ∈ u, j.id = x) : (lookupIssue u x).isSome := by
  rw [lookupIssue, List.find?_isSome]
  obtain ⟨j, hj, hjx⟩ := h
  exact ⟨j, hj, by simp [hjx]⟩

/-- With no repeated IDs, an ID determines the member. -/
theorem nodup_id_eq (u : List UIssue) (hnd : (u.map UIssue.id).Nodup) :
    ∀ a ∈ u, ∀ b ∈ u, a.id = b.id → a = b := by
  induction u with
  | nil => intro a ha; exact absurd ha (List.not_mem_nil a)
  | cons v vs ih =>
      rw [List.map_cons, List.nodup_cons] at hnd
      intro a ha b hb hab
      rcases List.mem_cons.mp ha with ha1 | ha1 <;>
        rcases List.mem_cons.mp hb with hb1 | hb1
      · rw [ha1, hb1]
      · exfalso
        apply hnd.1
        rw [← ha1, hab]
        exact List.mem_map_of_mem UIssue.id hb1
      · exfalso
        apply hnd.1
        rw [← hb1, ← hab]
        exact List.mem_map_of_mem UIssue.id ha1
      · exact ih hnd.2 a ha1 b hb1 hab

/-- With no repeated IDs, looking a member's ID up returns that very
member. -/
theorem lookupIssue_of_mem_nodup (u : List UIssue) (hnd : (u.map UIssue.id).Nodup)
    (a : UIssue) (ha : a ∈ u) : lookupIssue u a.id = some a := by
  have hs := lookupIssue_isSome u a.id ⟨a, ha, rfl⟩
  obtain ⟨i, hi⟩ := Option.isSome_iff_exists.mp hs
  obtain ⟨himem, hiid⟩ := lookupIssue_eq_some u a.id i hi
  rw [hi]
  exact congrArg some (nodup_id_eq u hnd i himem a ha hiid)

/-- An open blocking dependency resolves to a non-closed member. -/
theorem mem_openBlockingDeps_resolvable (u : List UIssue) (i : UIssue) (d : String)
    (h : d ∈ openBlockingDeps u i) :
    ∃ j, lookupIssue u d = some j ∧ ¬ j.status = Status.closed := by
  rw [openBlockingDeps] at h
  obtain ⟨e, he, rfl⟩ := List.mem_map.mp h
  have hdo : depOpen u e = true := (List.mem_filter.mp he).2
  rw [depOpen, Bool.and_eq_true] at hdo
  cases hl : lookupIssue u e.dependsOnID with
  | none => rw [hl] at hdo; exact absurd hdo.2 (by simp)
  | some j =>
      rw [hl] at hdo
      exact ⟨j, rfl, of_decide_eq_true hdo.2⟩

/-- Unfolding a true blocking edge. -/
theorem blockingEdge_elim (u : List UIssue) (a b : String)
    (h : blockingEdge u a b = true) :
    ∃ i, lookupIssue u a = some i ∧ b ∈ openBlockingDeps u i := by
  rw [blockingEdge] at h
  cases hl : lookupIssue u a with
  | none => rw [hl] at h; exact absurd h (by simp)
  | some i =>
      rw [hl] at h
      exact ⟨i, rfl, by simpa using h⟩

/-- Establishing a blocking edge. -/
theorem blockingEdge_intro (u : List UIssue) (a b : String) (i : UIssue)
    (hl : lookupIssue u a = some i) (hb : b ∈ openBlockingDeps u i) :
    blockingEdge u a b = true := by
  rw [blockingEdge, hl]
  simpa using hb

/-- A suffix of an edge chain is an edge chain. -/
theorem chain_suffix (u : List UIssue) (l1 : List String) : ∀ l2,
    chainEdges u (l1 ++ l2) = true → chainEdges u l2 = true := by
  induction l1 with
  | nil => intro l2 h; simpa using h
  | cons a l1 ih =>
      intro l2 h
      cases hsh : l1 ++ l2 with
      | nil =>
          have : l2 = [] := (List.append_eq_nil.mp hsh).2
          rw [this]
          rfl
      | cons b t =>
          rw [List.cons_append, hsh, chainEdges, Bool.and_eq_true] at h
          exact ih l2 (hsh ▸ h.2)

/-- Dropping the final vertex of an edge chain keeps it a chain. -/
theorem chain_dropLast (u : List UIssue) (l : List String) : ∀ y,
    chainEdges u (l ++ [y]) = true → chainEdges u l = true := by
  induction l with
  | nil => intro y _; rfl
  | cons a l ih =>
      intro y h
      cases hsh : l with
      | nil => rfl
      | cons b t =>
          subst hsh
          rw [List.cons_append, List.cons_append, chainEdges, Bool.and_eq_true] at h
          rw [chainEdges, Bool.and_eq_true]
          exact ⟨h.1, ih y (by rw [List.cons_append]; exact h.2)⟩

/-- The final edge of a chain ending `…, z, y`. -/
theorem chain_lastEdge (u : List UIssue) (l : List String) : ∀ z y,
    chainEdges u ((l ++ [z]) ++ [y]) = true → blockingEdge u z y = true := by
  induction l with
  | nil =>
      intro z y h
      simp only [List.nil_append, List.cons_append, chainEdges, Bool.and_eq_true] at h
      exact h.1
  | cons a l ih =>
      intro z y h
      cases hsh : (l ++ [z]) ++ [y] with
      | nil => exact absurd hsh (by simp)
      | cons b t =>
          rw [List.cons_append, List.cons_append, hsh, chainEdges, Bool.and_eq_true] at h
          exact ih z y (hsh ▸ h.2)

/-- Extending a chain ending in `z` by an edge `z → y`. -/
theorem chain_extend (u : List UIssue) (l : List String) : ∀ z y,
    chainEdges u (l ++ [z]) = true → blockingEdge u z y = true →
    chainEdges u ((l ++ [z]) ++ [y]) = true := by
  induction l with
  | nil =>
      intro z y _ he
      simp only [List.nil_append, List.cons_append, chainEdges, Bool.and_eq_true]
      exact ⟨he, trivial⟩
  | cons a l ih =>
      intro z y h he
      cases hsh : l ++ [z] with
      | nil => exact absurd hsh (by simp)
      | cons b t =>
          rw [List.cons_append, hsh, chainEdges, Bool.and_eq_true] at h
          have hlz : chainEdges u (l ++ [z]) = true := by rw [hsh]; exact h.2
          have htail := ih z y hlz he
          rw [hsh, List.cons_append] at htail
          rw [List.cons_append, List.cons_append, hsh, List.cons_append,
            chainEdges, Bool.and_eq_true]
          exact ⟨h.1, htail⟩

/-- Splitting a list at the first occurrence of a member. -/
theorem mem_split_takeWhile (l : List String) (x : String) (h : x ∈ l) :
    ∃ B, l = l.takeWhile (fun y => y ≠ x) ++ x :: B := by
  induction l with
  | nil => exact absurd h (List.not_mem_nil x)
  | cons a l ih =>
      by_cases hax : a = x
      · subst hax
        exact ⟨l, by simp [List.takeWhile_cons]⟩
      · obtain ⟨B, hB⟩ := ih (List.mem_of_ne_of_mem (fun hh => hax hh.symm) h)
        refine ⟨B, ?_⟩
        rw [List.takeWhile_cons]
        rw [if_pos (by simpa using hax)]
        rw [List.cons_append]
        conv_lhs => rw [hB]

/-- Unfolding a successful residual step. -/
theorem nextDep_spec (u R : List UIssue) (x y : String) (h : nextDep u R x = some y) :
    ∃ i, lookupIssue R x = some i ∧ y ∈ openBlockingDeps u i ∧
      (lookupIssue R y).isSome := by
  rw [nextDep] at h
  cases hl : lookupIssue R x with
  | none =>
      rw [hl] at h
      exact absurd h (by simp)
  | some i =>
      rw [hl] at h
      dsimp only at h
      have hp := List.find?_some h
      exact ⟨i, rfl, List.mem_of_find?_eq_some h, by simpa using hp⟩

/-- At a stall — every residual issue still has an unassigned open
blocking dependency, and every resolvable ID is assigned or residual —
each residual ID has a residual step along an open blocking edge. -/
theorem stall_next (u R : List UIssue) (assigned : List String)
    (hnd : (u.map UIssue.id).Nodup)
    (hsub : ∀ i ∈ R, i ∈ u)
    (hstall : ∀ i ∈ R, readyIn u assigned i = false)
    (hcover : ∀ d, (lookupIssue u d).isSome = true → d ∈ assigned ∨ d ∈ R.map UIssue.id) :
    ∀ x ∈ R.map UIssue.id, ∃ y, nextDep u R x = some y ∧ y ∈ R.map UIssue.id ∧
      blockingEdge u x y = true := by
  intro x hx
  obtain ⟨jx, hjxR, hjxid⟩ := List.mem_map.mp hx
  have hsR : (lookupIssue R x).isSome := lookupIssue_isSome R x ⟨jx, hjxR, hjxid⟩
  obtain ⟨i, hi⟩ := Option.isSome_iff_exists.mp hsR
  obtain ⟨hiR, hiid⟩ := lookupIssue_eq_some R x i hi
  have hnr := hstall i hiR
  rw [readyIn] at hnr
  obtain ⟨d, hd, hdna⟩ := List.all_eq_false.mp hnr
  have hdnass : d ∉ assigned := fun hmem => hdna (decide_eq_true hmem)
  obtain ⟨jd, hjd, _⟩ := mem_openBlockingDeps_resolvable u i d hd
  have hds : (lookupIssue u d).isSome := by rw [hjd]; rfl
  rcases hcover d hds with hda | hdR
  · exact absurd hda hdnass
  · have hfs : ((openBlockingDeps u i).find? fun e => (lookupIssue R e).isSome).isSome := by
      rw [List.find?_isSome]
      obtain ⟨je, hjeR, hjeid⟩ := List.mem_map.mp hdR
      exact ⟨d, hd, lookupIssue_isSome R d ⟨je, hjeR, hjeid⟩⟩
    obtain ⟨y, hy⟩ := Option.isSome_iff_exists.mp hfs
    refine ⟨y, ?_, ?_, ?_⟩
    · rw [nextDep, hi]; exact hy
    · have hys := List.find?_some hy
      obtain ⟨iy, hiy⟩ := Option.isSome_iff_exists.mp hys
      obtain ⟨hiyR, hiyid⟩ := lookupIssue_eq_some R y iy hiy
      exact List.mem_map.mpr ⟨iy, hiyR, hiyid⟩
    · have hymem := List.mem_of_find?_eq_some hy
      have hlux : lookupIssue u x = some i := by
        have := lookupIssue_of_mem_nodup u hnd i (hsub i hiR)
        rw [hiid] at this
        exact this
      exact blockingEdge_intro u x y i hlux hymem

/-- The dependency walk through a residual set in which every ID can
step reaches a repeated ID before fuel plus path length exceeds the
residual size, and reports a genuine cycle of open blocking edges. -/
theorem cycleWalk_sound (u R : List UIssue)
    (H : ∀ x ∈ R.map UIssue.id, ∃ y, nextDep u R x = some y ∧ y ∈ R.map UIssue.id ∧
      blockingEdge u x y = true) :
    ∀ (fuel : Nat) (path : List String) (x : String),
    x ∈ R.map UIssue.id →
    (∀ p ∈ path, p ∈ R.map UIssue.id) →
    path.Nodup →
    chainEdges u ((x :: path).reverse) = true →
    R.length + 1 ≤ fuel + path.length →
    isDepCycle u (cycleWalk u R fuel path x) := by
  intro fuel
  induction fuel with
  | zero =>
      intro path x hx hsub hnd hchain hlen
      exfalso
      have h1 : path.length ≤ (R.map UIssue.id).length :=
        (List.subperm_of_subset hnd hsub).length_le
      rw [List.length_map] at h1
      omega
  | succ fuel ih =>
      intro path x hx hsub hnd hchain hlen
      rw [cycleWalk]
      by_cases hmem : x ∈ path
      · rw [if_pos hmem]
        obtain ⟨B, hB⟩ := mem_split_takeWhile path x hmem
        have hxA : x ∉ path.takeWhile (fun y => y ≠ x) := by
          intro hmem2
          have := List.mem_takeWhile_imp hmem2
          simp at this
        have hpathd : ((path.takeWhile fun y => y ≠ x) ++ x :: B).Nodup := hB ▸ hnd
        rw [List.nodup_append] at hpathd
        have hch2 : chainEdges u ((x :: (path.takeWhile fun y => y ≠ x).reverse) ++ [x]) =
            true := by
          have hrw : (x :: path).reverse =
              B.reverse ++ ((x :: (path.takeWhile fun y => y ≠ x).reverse) ++ [x]) := by
            rw [List.reverse_cons]
            conv_lhs => rw [hB]
            rw [List.reverse_append, List.reverse_cons]
            simp [List.append_assoc]
          rw [hrw] at hchain
          exact chain_suffix u B.reverse _ hchain
        cases hAe : path.takeWhile (fun y => y ≠ x) with
        | nil =>
            rw [hAe] at hch2
            simp only [List.reverse_nil, List.cons_append, List.nil_append] at hch2
            rw [chainEdges, Bool.and_eq_true] at hch2
            refine ⟨by simp, by simp, ?_, ?_⟩
            · rw [List.reverse_nil]
              rfl
            · rw [List.reverse_nil]
              simp only [List.headD_cons, List.getLastD_cons]
              exact hch2.1
        | cons a A2 =>
            rw [hAe] at hch2 hpathd
            rw [List.reverse_cons] at hch2
            have hchc : chainEdges u (x :: (A2.reverse ++ [a])) = true :=
              chain_dropLast u (x :: (A2.reverse ++ [a])) x hch2
            rw [← List.cons_append] at hch2
            have hwrap : blockingEdge u a x = true :=
              chain_lastEdge u (x :: A2.reverse) a x hch2
            refine ⟨by simp, ?_, ?_, ?_⟩
            · rw [List.reverse_cons, List.nodup_cons]
              constructor
              · intro hxm
                apply hxA
                rw [hAe]
                rw [← List.reverse_cons] at hxm
                exact List.mem_reverse.mp hxm
              · rw [← List.reverse_cons]
                exact List.nodup_reverse.mpr hpathd.1
            · rw [List.reverse_cons]
              exact hchc
            · rw [List.reverse_cons]
              simp only [List.headD_cons, List.getLastD_cons, List.getLastD_concat]
              exact hwrap
      · rw [if_neg hmem]
        obtain ⟨y, hy, hyR, hedge⟩ := H x hx
        rw [hy]
        apply ih (x :: path) y hyR
        · intro p hp
          rcases List.mem_cons.mp hp with rfl | hp
          · exact hx
          · exact hsub p hp
        · exact List.nodup_cons.mpr ⟨hmem, hnd⟩
        · rw [List.reverse_cons, List.reverse_cons]
          rw [List.reverse_cons] at hchain
          exact chain_extend u path.reverse x y hchain hedge
        · simp only [List.length_cons]
          omega

/-- At a stall the reported residual cycle is a genuine cycle of open
blocking edges. -/
theorem extractCycle_sound (u R : List UIssue)
    (H : ∀ x ∈ R.map UIssue.id, ∃ y, nextDep u R x = some y ∧ y ∈ R.map UIssue.id ∧
      blockingEdge u x y = true)
    (hR : R ≠ []) : isDepCycle u (extractCycle u R) := by
  cases R with
  | nil => exact absurd rfl hR
  | cons r rs =>
      rw [extractCycle]
      apply cycleWalk_sound u (r :: rs) H ((r :: rs).length + 1) [] r.id
      · exact List.mem_map.mpr ⟨r, List.mem_cons_self r rs, rfl⟩
      · intro p hp
        exact absurd hp (List.not_mem_nil p)
      · exact List.nodup_nil
      · rfl
      · simp

/-- When the layering loop fails, the reported IDs form a cycle of
open blocking edges. -/
theorem kahnGo_error_sound (u : List UIssue) (hnd : (u.map UIssue.id).Nodup) (fuel : Nat) :
    ∀ (assigned : List String) (R : List UIssue) (e : List String),
    R.length ≤ fuel →
    (∀ i ∈ R, i ∈ u) →
    (∀ d, (lookupIssue u d).isSome = true → d ∈ assigned ∨ d ∈ R.map UIssue.id) →
    kahnGo u fuel assigned R = Except.error e →
    isDepCycle u e := by
  induction fuel with
  | zero =>
      intro assigned R e hf hsub hcover h
      have hR : R = [] := List.eq_nil_of_length_eq_zero (by omega)
      subst hR
      rw [kahnGo] at h
      exact absurd h (fun hh => Except.noConfusion hh)
  | succ fuel ih =>
      intro assigned R e hf hsub hcover h
      cases R with
      | nil =>
          rw [kahnGo] at h
          exact absurd h (fun hh => Except.noConfusion hh)
      | cons r rs =>
          simp only [kahnGo] at h
          by_cases hre : ((r :: rs).filter (readyIn u assigned)).isEmpty
          · rw [if_pos hre] at h
            obtain rfl : extractCycle u (r :: rs) = e := Except.error.inj h
            have hstall : ∀ i ∈ r :: rs, readyIn u assigned i = false := by
              have hfe : (r :: rs).filter (readyIn u assigned) = [] := by
                simpa [List.isEmpty_iff] using hre
              intro i hi
              have := List.filter_eq_nil_iff.mp hfe i hi
              simpa using this
            exact extractCycle_sound u (r :: rs)
              (stall_next u (r :: rs) assigned hnd hsub hstall hcover)
              (List.cons_ne_nil r rs)
          · rw [if_neg hre] at h
            rw [Bool.not_eq_true] at hre
            cases hrec : kahnGo u fuel
                (assigned ++ ((r :: rs).filter (readyIn u assigned)).map UIssue.id)
                ((r :: rs).filter fun i => !readyIn u assigned i) with
            | ok tracks' =>
                rw [hrec] at h
                exact absurd h (fun hh => Except.noConfusion hh)
            | error e2 =>
                rw [hrec] at h
                obtain rfl : e2 = e := Except.error.inj h
                obtain ⟨x, hxmem, hxready⟩ : ∃ x ∈ r :: rs, readyIn u assigned x = true := by
                  cases hfe : (r :: rs).filter (readyIn u assigned) with
                  | nil => rw [hfe] at hre; exact absurd hre (by simp)
                  | cons y ys =>
                      have hy : y ∈ (r :: rs).filter (readyIn u assigned) := by
                        rw [hfe]; exact List.mem_cons_self y ys
                      rw [List.mem_filter] at hy
                      exact ⟨y, hy.1, hy.2⟩
                refine ih _ _ e2 ?_ ?_ ?_ hrec
                · have : ((r :: rs).filter fun i => !readyIn u assigned i).length <
                      (r :: rs).length :=
                    List.length_filter_lt_length_iff_exists.mpr
                      ⟨x, hxmem, by simp [hxready]⟩
                  simp only [List.length_cons] at this hf ⊢
                  omega
                · intro i hi
                  exact hsub i (List.mem_filter.mp hi).1
                · intro d hd
                  rcases hcover d hd with hda | hdR
                  · exact Or.inl (List.mem_append.mpr (Or.inl hda))
                  · obtain ⟨j, hjR, hjid⟩ := List.mem_map.mp hdR
                    by_cases hjr : readyIn u assigned j = true
                    · refine Or.inl (List.mem_append.mpr (Or.inr ?_))
                      exact List.mem_map.mpr ⟨j, List.mem_filter.mpr ⟨hjR, hjr⟩, hjid⟩
                    · refine Or.inr (List.mem_map.mpr ⟨j, ?_, hjid⟩)
                      exact List.mem_filter.mpr ⟨hjR, by simp [hjr]⟩

/-- A failing plan reports a genuine cycle of open blocking edges. -/
theorem computePlan_error_sound (u : List UIssue) (hnd : (u.map UIssue.id).Nodup)
    (e : List String) (h : computePlan u = Except.error e) : isDepCycle u e := by
  rw [computePlan] at h
  refine kahnGo_error_sound u hnd u.length [] u e (le_refl _) (fun i hi => hi) ?_ h
  intro d hd
  obtain ⟨i, hi⟩ := Option.isSome_iff_exists.mp hd
  obtain ⟨hiu, hiid⟩ := lookupIssue_eq_some u d i hi
  exact Or.inr (List.mem_map.mpr ⟨i, hiu, hiid⟩)

/-- In a successful plan, the source of an open blocking edge sits
strictly after its target. -/
theorem computePlan_ok_edge_lt (u : List UIssue) (tracks : List (List UIssue))
    (hnd : (u.map UIssue.id).Nodup) (hok : computePlan u = Except.ok tracks) :
    ∀ a b, blockingEdge u a b = true →
    ∀ ka kb, ∀ hka : ka < tracks.length, ∀ hkb : kb < tracks.length,
    (∃ ia ∈ tracks.get ⟨ka, hka⟩, ia.id = a) →
    (∃ ib ∈ tracks.get ⟨kb, hkb⟩, ib.id = b) → kb < ka := by
  rw [computePlan] at hok
  obtain ⟨S1, S2, S3, S4⟩ := kahnGo_ok_sound u u.length [] u tracks (le_refl _) hok
  have hndflat : ((tracks.flatMap (fun t => t)).map UIssue.id).Nodup :=
    ((S4.map UIssue.id).nodup_iff).mpr hnd
  intro a b he ka kb hka hkb hea heb
  obtain ⟨ia, hia, hiaid⟩ := hea
  obtain ⟨ib, hib, hibid⟩ := heb
  obtain ⟨ia2, hlook, hbdeps⟩ := blockingEdge_elim u a b he
  obtain ⟨hia2u, hia2id⟩ := lookupIssue_eq_some u a ia2 hlook
  obtain ⟨hiau, hdeps⟩ := S3 ka hka ia hia
  have hii : ia = ia2 := nodup_id_eq u hnd ia hiau ia2 hia2u (by rw [hiaid, hia2id])
  rcases hdeps b (by rw [hii]; exact hbdeps) with habs | ⟨k2, hk2, hk2lt, j2, hj2mem, hj2id⟩
  · exact absurd habs (List.not_mem_nil b)
  · have : kb = k2 := track_index_unique tracks hndflat kb k2 hkb hk2 ib j2 hib hj2mem
      (by rw [hibid, hj2id])
    omega

/-- Along a chain of open blocking edges, tracks never increase: in a
successful plan the last vertex's track is at most the first's. -/
theorem chain_track_le (u : List UIssue) (tracks : List (List UIssue))
    (hnd : (u.map UIssue.id).Nodup) (hok : computePlan u = Except.ok tracks) :
    ∀ c : List String, chainEdges u c = true → c ≠ [] →
    ∀ ka kz, ∀ hka : ka < tracks.length, ∀ hkz : kz < tracks.length,
    (∃ ia ∈ tracks.get ⟨ka, hka⟩, ia.id = c.headD "") →
    (∃ iz ∈ tracks.get ⟨kz, hkz⟩, iz.id = c.getLastD "") →
    kz ≤ ka := by
  have hok0 := hok
  rw [computePlan] at hok
  obtain ⟨S1, S2, S3, S4⟩ := kahnGo_ok_sound u u.length [] u tracks (le_refl _) hok
  have hndflat : ((tracks.flatMap (fun t => t)).map UIssue.id).Nodup :=
    ((S4.map UIssue.id).nodup_iff).mpr hnd
  intro c
  induction c with
  | nil => intro _ hne; exact absurd rfl hne
  | cons a rest ih =>
      intro hch _ ka kz hka hkz hha hhz
      cases rest with
      | nil =>
          obtain ⟨ia, hia, hiaid⟩ := hha
          obtain ⟨iz, hiz, hizid⟩ := hhz
          have : kz = ka := track_index_unique tracks hndflat kz ka hkz hka iz ia hiz hia
            (by rw [hizid, hiaid]; rfl)
          omega
      | cons b rest2 =>
          rw [chainEdges, Bool.and_eq_true] at hch
          obtain ⟨hab, hch2⟩ := hch
          obtain ⟨ia3, _hlooka, hbdeps⟩ := blockingEdge_elim u a b hab
          obtain ⟨jb, hlookjb, _⟩ := mem_openBlockingDeps_resolvable u ia3 b hbdeps
          obtain ⟨hjbu, hjbid⟩ := lookupIssue_eq_some u b jb hlookjb
          obtain ⟨kb, hkb, hmemb⟩ := S2 jb hjbu
          have hlt : kb < ka :=
            computePlan_ok_edge_lt u tracks hnd hok0 a b hab ka kb hka hkb
              (by simpa using hha) ⟨jb, hmemb, hjbid⟩
          have hglast : ((a :: b :: rest2).getLastD "") = ((b :: rest2).getLastD "") := by
            rw [List.getLastD_cons]
            rw [List.getLastD_eq_getLast?, List.getLastD_eq_getLast?]
            obtain ⟨w, hw⟩ := Option.isSome_iff_exists.mp
              (List.getLast?_isSome.mpr (List.cons_ne_nil b rest2))
            rw [hw]
            rfl
          have hle : kz ≤ kb := by
            refine ih hch2 (List.cons_ne_nil b rest2) kb kz hkb hkz
              ⟨jb, hmemb, by simpa using hjbid⟩ ?_
            obtain ⟨iz, hiz, hizid⟩ := hhz
            exact ⟨iz, hiz, by rw [hizid, hglast]⟩
          omega

/-- A successful plan rules out any cycle of open blocking edges. -/
theorem computePlan_ok_no_cycle (u : List UIssue) (tracks : List (List UIssue))
    (hnd : (u.map UIssue.id).Nodup) (hok : computePlan u = Except.ok tracks)
    (c : List String) (hc : isDepCycle u c) : False := by
  obtain ⟨hne, _hnodupc, hchain, hwrap⟩ := hc
  cases c with
  | nil => exact absurd rfl hne
  | cons a rest =>
      simp only [List.headD_cons] at hwrap
      obtain ⟨iz, hlookz, hadeps⟩ := blockingEdge_elim u ((a :: rest).getLastD "") a hwrap
      obtain ⟨hizu, hizid⟩ := lookupIssue_eq_some u ((a :: rest).getLastD "") iz hlookz
      obtain ⟨ja, hlookja, _⟩ := mem_openBlockingDeps_resolvable u iz a hadeps
      obtain ⟨hjau, hjaid⟩ := lookupIssue_eq_some u a ja hlookja
      have hok0 := hok
      rw [computePlan] at hok
      obtain ⟨S1, S2, S3, S4⟩ := kahnGo_ok_sound u u.length [] u tracks (le_refl _) hok
      obtain ⟨ka, hka, hma⟩ := S2 ja hjau
      obtain ⟨kz, hkz, hmz⟩ := S2 iz hizu
      have hle : kz ≤ ka :=
        chain_track_le u tracks hnd hok0 (a :: rest) hchain (List.cons_ne_nil a rest)
          ka kz hka hkz ⟨ja, hma, by simpa using hjaid⟩ ⟨iz, hmz, hizid⟩
      have hlt : ka < kz :=
        computePlan_ok_edge_lt u tracks hnd hok0 ((a :: rest).getLastD "") a hwrap
          kz ka hkz hka ⟨iz, hmz, hizid⟩ ⟨ja, hma, hjaid⟩
      omega

end Core

namespace BVClaims

open Config

/-- C8: `IsEnabled` is true exactly when the `Enabled` pointer is nil
or points at true, and `EnabledPaths` returns the paths of the enabled
entries in their original order, so `Enabled=false` entries are
dropped. -/
theorem claim_C8 :
    (∀ p : ProjectEntry,
      (p.enabled = none → p.isEnabled = true) ∧
      (∀ b, p.enabled = some b → p.isEnabled = b)) ∧
    (∀ c : ProjectsConfig,
      c.enabledPaths = (c.projects.filter (fun p => p.isEnabled)).map ProjectEntry.path) := by
  refine ⟨fun p => ⟨fun h => ?_, fun b h => ?_⟩, fun c => ?_⟩
  · simp [ProjectEntry.isEnabled, h]
  · simp [ProjectEntry.isEnabled, h]
  · simpa using enabledPaths_foldl c.projects []

/-- Witness for C8 at concrete inputs: a nil-`Enabled` entry counts as
enabled, and a config with one enabled and one disabled entry yields
just the enabled path. -/
theorem claim_C8_witness :
    ProjectEntry.isEnabled ⟨"n", "/p", none⟩ = true ∧
      ProjectsConfig.enabledPaths ⟨[⟨"a", "/a", none⟩, ⟨"b", "/b", some false⟩]⟩ = ["/a"] :=
  ⟨(claim_C8.1 ⟨"n", "/p", none⟩).1 rfl,
    (claim_C8.2 ⟨[⟨"a", "/a", none⟩, ⟨"b", "/b", some false⟩]⟩).trans (by decide)⟩

/-- C9: a missing projects file is not a failure — loading from a path
with no file yields an empty config and nil error, and clearing an
already-absent config file yields nil error. -/
theorem claim_C9 :
    (∀ (fs : String → ReadResult) (parse : String → Except String ProjectsConfig)
        (path : String), fs path = ReadResult.notExist →
        loadProjectsFrom fs parse path = Except.ok ⟨[]⟩) ∧
    (∀ (rm : String → RemoveResult) (path : String), rm path = RemoveResult.notExist →
        clearProjects rm path = none) := by
  constructor
  · intro fs parse path h
    simp [loadProjectsFrom, h]
  · intro rm path h
    simp [clearProjects, h]

/-- Witness for C9 on a concrete absent-file filesystem. -/
theorem claim_C9_witness :
    loadProjectsFrom (fun _ => ReadResult.notExist) (fun _ => Except.error "parse")
        "/cfg/projects.yaml" = Except.ok ⟨[]⟩ ∧
      clearProjects (fun _ => RemoveResult.notExist) "/cfg/projects.yaml" = none :=
  ⟨claim_C9.1 (fun _ => ReadResult.notExist) (fun _ => Except.error "parse")
      "/cfg/projects.yaml" rfl,
    claim_C9.2 (fun _ => RemoveResult.notExist) "/cfg/projects.yaml" rfl⟩

open UI in
/-- C10: starting from `NewProjectManagerModel`, every sequence of
`SetProjects` / `MoveUp` / `MoveDown` / `ToggleActive` / `AddProject`
/ `RemoveSelected` calls keeps `selectedIndex` at least 0 and, when
the project list is non-empty, below its length; consequently
`SelectedProject` returns nil exactly when the list is empty. -/
theorem claim_C10 (ops : List PMOp) :
    0 ≤ (applyOps newProjectManagerModel ops).selectedIndex ∧
    ((applyOps newProjectManagerModel ops).projects ≠ [] →
      (applyOps newProjectManagerModel ops).selectedIndex <
        ((applyOps newProjectManagerModel ops).projects.length : Int)) ∧
    (selectedProject (applyOps newProjectManagerModel ops) = none ↔
      (applyOps newProjectManagerModel ops).projects = []) := by
  have h := pmInv_applyOps ops newProjectManagerModel pmInv_new
  exact ⟨h.1, fun hne => h.2.2 (List.length_pos.mpr hne),
    selectedProject_eq_none_iff _ h⟩

open UI in
/-- Witness for C10 on concrete call sequences: after adding one
project the index is in range, and after adding then removing it the
selection is nil. -/
theorem claim_C10_witness :
    (applyOps newProjectManagerModel
        [PMOp.addProject ⟨"api", "/a", "api", 1, true⟩]).selectedIndex <
      ((applyOps newProjectManagerModel
        [PMOp.addProject ⟨"api", "/a", "api", 1, true⟩]).projects.length : Int) ∧
    selectedProject (applyOps newProjectManagerModel
        [PMOp.addProject ⟨"api", "/a", "api", 1, true⟩, PMOp.removeSelected]) = none :=
  ⟨(claim_C10 [PMOp.addProject ⟨"api", "/a", "api", 1, true⟩]).2.1 (by decide),
    ((claim_C10 [PMOp.addProject ⟨"api", "/a", "api", 1, true⟩,
      PMOp.removeSelected]).2.2).mpr (by decide)⟩

open Core in
/-- Counterexample to C1 as stated: with directory names
`a_1`, `a`, `a` the resolver assigns `a_1`, `a`, `a_1` — the third
project's disambiguated token collides with the first project's base
token, so the N assigned tokens are not pairwise distinct. -/
theorem claim_C1_counterexample : ¬ (assignPfxs ["a_1", "a", "a"]).Nodup := by
  decide

open Core in
/-- C1 (amended: the lowercased directory names must be
underscore-free, as the counterexample forces): the resolver assigns
one token per project, pairwise distinct, and the token at position
`i` is the lowercased name on first use and `base_k` on its `k`-th
reuse, counting uses among earlier positions only — so the assignment
is a pure function of the ordered name list (determinism). -/
theorem claim_C1 (dirs : List String)
    (h : ∀ d ∈ dirs, ('_' : Char) ∉ (lowerStr d).data) :
    (assignPfxs dirs).length = dirs.length ∧
    (assignPfxs dirs).Nodup ∧
    (∀ i d, dirs.get? i = some d →
      (assignPfxs dirs).get? i =
        some (mkPfx (lowerStr d) (((dirs.take i).map lowerStr).count (lowerStr d)))) := by
  refine ⟨pfxsFrom_length dirs [], pfxsFrom_nodup dirs [] h, fun i d hd => ?_⟩
  simpa using pfxsFrom_get? dirs [] i d hd

open Core in
/-- Witness for C1 (amended) at names `api`, `web`, `api`: three
pairwise-distinct tokens, the third being `api_1`. -/
theorem claim_C1_witness :
    (assignPfxs ["api", "web", "api"]).length = 3 ∧
    (assignPfxs ["api", "web", "api"]).Nodup ∧
    (assignPfxs ["api", "web", "api"]).get? 2 = some "api_1" := by
  obtain ⟨h1, h2, h3⟩ := claim_C1 ["api", "web", "api"] (by decide)
  refine ⟨h1.trans (by decide), h2, ?_⟩
  rw [h3 2 "api" (by decide)]
  decide

open Core in
/-- C2: two projects `api` and `web`, each defining original issue
`TASK-1`, merge into exactly two issues with final IDs `api-TASK-1`
and `web-TASK-1` (final ID = token, dash, original ID, applied once),
and the triage open count over that universe is 2. -/
theorem claim_C2 :
    mergeProjects
        [⟨"api", [⟨"TASK-1", "API Task", Status.open_, 1, []⟩]⟩,
         ⟨"web", [⟨"TASK-1", "Web Task", Status.open_, 1, []⟩]⟩] =
      [⟨"api", "api-TASK-1", "API Task", Status.open_, 1, []⟩,
       ⟨"web", "web-TASK-1", "Web Task", Status.open_, 1, []⟩] ∧
    (computeTriage (mergeProjects
        [⟨"api", [⟨"TASK-1", "API Task", Status.open_, 1, []⟩]⟩,
         ⟨"web", [⟨"TASK-1", "Web Task", Status.open_, 1, []⟩]⟩]) none).openCount = 2 := by
  decide

open Core in
/-- Counterexample to C4 as stated: a universe whose `blocks`-kind
edges form a directed 2-cycle between two closed issues — the
Layering Engine succeeds with a one-track plan instead of failing
with a CycleError, because both edges point at closed issues and are
therefore satisfied. -/
theorem claim_C4_counterexample :
    isBlocksCycle
        [⟨"p", "p-A", "A", Status.closed, 1, [⟨"p-B", DepKind.blocks⟩]⟩,
         ⟨"p", "p-B", "B", Status.closed, 1, [⟨"p-A", DepKind.blocks⟩]⟩]
        ["p-A", "p-B"] ∧
    computePlan
        [⟨"p", "p-A", "A", Status.closed, 1, [⟨"p-B", DepKind.blocks⟩]⟩,
         ⟨"p", "p-B", "B", Status.closed, 1, [⟨"p-A", DepKind.blocks⟩]⟩] =
      Except.ok [[⟨"p", "p-A", "A", Status.closed, 1, [⟨"p-B", DepKind.blocks⟩]⟩,
        ⟨"p", "p-B", "B", Status.closed, 1, [⟨"p-A", DepKind.blocks⟩]⟩]] := by
  decide

open Core in
/-- C4 (amended: the cycle must consist of open blocking edges —
`blocks` edges resolving to non-closed issues — as the counterexample
forces): on a universe with unique final IDs containing such a cycle,
the Layering Engine fails with a CycleError whose reported IDs are
exactly the issues of a directed cycle of open blocking edges, and
never returns a Plan; the Triage Engine still succeeds on that same
universe, its open count as specified. -/
theorem claim_C4 (u : List UIssue) (c : List String)
    (hnd : (u.map UIssue.id).Nodup) (hc : isDepCycle u c) :
    (∃ e, computePlan u = Except.error e ∧ e ≠ [] ∧ isDepCycle u e) ∧
    (computeTriage u none).openCount =
      (u.filter fun i => !decide (i.status = Status.closed)).length := by
  constructor
  · cases hp : computePlan u with
    | ok tracks => exact (computePlan_ok_no_cycle u tracks hnd hp c hc).elim
    | error e =>
        have he := computePlan_error_sound u hnd e hp
        exact ⟨e, rfl, he.1, he⟩
  · simpa [filterUniverse] using computeTriage_openCount u none

open Core in
/-- Witness for C4 (amended) on a concrete open 2-cycle: the plan
fails with a cycle report while triage still counts the two open
issues. -/
theorem claim_C4_witness :
    (∃ e, computePlan
        [⟨"p", "p-A", "A", Status.open_, 1, [⟨"p-B", DepKind.blocks⟩]⟩,
         ⟨"p", "p-B", "B", Status.open_, 1, [⟨"p-A", DepKind.blocks⟩]⟩] =
        Except.error e ∧ e ≠ [] ∧
        isDepCycle
          [⟨"p", "p-A", "A", Status.open_, 1, [⟨"p-B", DepKind.blocks⟩]⟩,
           ⟨"p", "p-B", "B", Status.open_, 1, [⟨"p-A", DepKind.blocks⟩]⟩] e) ∧
    (computeTriage
        [⟨"p", "p-A", "A", Status.open_, 1, [⟨"p-B", DepKind.blocks⟩]⟩,
         ⟨"p", "p-B", "B", Status.open_, 1, [⟨"p-A", DepKind.blocks⟩]⟩] none).openCount =
      (([⟨"p", "p-A", "A", Status.open_, 1, [⟨"p-B", DepKind.blocks⟩]⟩,
        ⟨"p", "p-B", "B", Status.open_, 1, [⟨"p-A", DepKind.blocks⟩]⟩] : List UIssue).filter
          fun i => !decide (i.status = Status.closed)).length :=
  claim_C4
    [⟨"p", "p-A", "A", Status.open_, 1, [⟨"p-B", DepKind.blocks⟩]⟩,
     ⟨"p", "p-B", "B", Status.open_, 1, [⟨"p-A", DepKind.blocks⟩]⟩]
    ["p-A", "p-B"] (by decide) (by decide)

open Core in
/-- C5: a dependency value that already equals a known final ID (some
loaded project's token, a dash, and one of that project's original
issue IDs) is left unchanged by the rewrite, so rewriting it a second
time is a no-op. -/
theorem claim_C5 (nps : List (String × Project)) (pfx raw : String)
    (h : ∃ pq ∈ nps, ∃ o ∈ pq.2.issues, raw = pq.1 ++ "-" ++ o.id) :
    rewriteDep nps pfx raw = raw ∧
      rewriteDep nps pfx (rewriteDep nps pfx raw) = raw := by
  have hk : knownFinalID nps raw = true := by
    obtain ⟨pq, hpq, o, ho, hraw⟩ := h
    rw [knownFinalID, List.any_eq_true]
    refine ⟨pq, hpq, ?_⟩
    rw [List.any_eq_true]
    exact ⟨o, ho, by simp [hraw]⟩
  rw [rewriteDep, if_pos hk, rewriteDep, if_pos hk]
  exact ⟨rfl, rfl⟩

open Core in
/-- Witness for C5: with projects `api` and `web` loaded, the
already-final reference `api-API-1` authored inside `web` is kept
as-is, twice. -/
theorem claim_C5_witness :
    rewriteDep (namespacedProjects
        [⟨"api", [⟨"API-1", "API Endpoint", Status.open_, 1, []⟩]⟩,
         ⟨"web", [⟨"WEB-1", "Web Dashboard", Status.open_, 1, []⟩]⟩]) "web" "api-API-1" =
      "api-API-1" ∧
    rewriteDep (namespacedProjects
        [⟨"api", [⟨"API-1", "API Endpoint", Status.open_, 1, []⟩]⟩,
         ⟨"web", [⟨"WEB-1", "Web Dashboard", Status.open_, 1, []⟩]⟩]) "web"
      (rewriteDep (namespacedProjects
        [⟨"api", [⟨"API-1", "API Endpoint", Status.open_, 1, []⟩]⟩,
         ⟨"web", [⟨"WEB-1", "Web Dashboard", Status.open_, 1, []⟩]⟩]) "web" "api-API-1") =
      "api-API-1" :=
  claim_C5 (namespacedProjects
      [⟨"api", [⟨"API-1", "API Endpoint", Status.open_, 1, []⟩]⟩,
       ⟨"web", [⟨"WEB-1", "Web Dashboard", Status.open_, 1, []⟩]⟩]) "web" "api-API-1"
    (by decide)

open Core in
/-- C6: under repo filter `X` every issue of the output universe (both
the filtered triage set and the filtered plan's tracks) carries token
`X`, while the blocked determination keeps resolving dependencies
against the full cross-project universe — concretely, an `api` issue
blocked only by an open `web` issue still counts as blocked when
filtering on `api`. -/
theorem claim_C6 :
    (∀ (u : List UIssue) (x : String), ∀ i ∈ filterUniverse (some x) u, i.pfx = x) ∧
    (∀ (u : List UIssue) (x : String) (tracks : List (List UIssue)),
        computePlanFiltered (some x) u = Except.ok tracks →
        ∀ t ∈ tracks, ∀ i ∈ t, i.pfx = x) ∧
    (∀ (u : List UIssue) (x : String),
        (computeTriage u (some x)).blockedCount =
          ((filterUniverse (some x) u).filter (isBlocked u)).length) ∧
    (computeTriage (mergeProjects
        [⟨"api", [⟨"A-1", "API task", Status.open_, 1, [⟨"web-W-1", DepKind.blocks⟩]⟩]⟩,
         ⟨"web", [⟨"W-1", "Web task", Status.open_, 1, []⟩]⟩]) (some "api")).blockedCount = 1 := by
  refine ⟨fun u x i h => mem_filterUniverse u x i h, ?_, ?_, by decide⟩
  · intro u x tracks h t ht i hi
    cases hp : computePlan u with
    | error e => rw [computePlanFiltered, hp] at h; exact absurd h (fun hh => Except.noConfusion hh)
    | ok t0 =>
        rw [computePlanFiltered, hp] at h
        simp only [Except.map, Except.ok.injEq] at h
        subst h
        rw [restrictTracks, List.mem_filter, List.mem_map] at ht
        obtain ⟨⟨t1, _ht1, rfl⟩, _⟩ := ht
        rw [List.mem_filter] at hi
        exact eq_of_beq hi.2
  · exact fun u x => computeTriage_blockedCount u (some x)

open Core in
/-- Witness for C6 on the two-project demo universe: the filtered
universe's only member carries token `api`, and the filtered plan's
only track member does too. -/
theorem claim_C6_witness :
    UIssue.pfx ⟨"api", "api-A-1", "API task", Status.open_, 1,
        [⟨"web-W-1", DepKind.blocks⟩]⟩ = "api" ∧
    UIssue.pfx ⟨"api", "api-A-1", "API task", Status.open_, 1,
        [⟨"web-W-1", DepKind.blocks⟩]⟩ = "api" :=
  ⟨claim_C6.1 (mergeProjects
      [⟨"api", [⟨"A-1", "API task", Status.open_, 1, [⟨"web-W-1", DepKind.blocks⟩]⟩]⟩,
       ⟨"web", [⟨"W-1", "Web task", Status.open_, 1, []⟩]⟩]) "api"
      ⟨"api", "api-A-1", "API task", Status.open_, 1, [⟨"web-W-1", DepKind.blocks⟩]⟩
      (by decide),
    claim_C6.2.1 (mergeProjects
      [⟨"api", [⟨"A-1", "API task", Status.open_, 1, [⟨"web-W-1", DepKind.blocks⟩]⟩]⟩,
       ⟨"web", [⟨"W-1", "Web task", Status.open_, 1, []⟩]⟩]) "api"
      [[⟨"api", "api-A-1", "API task", Status.open_, 1, [⟨"web-W-1", DepKind.blocks⟩]⟩]]
      (by decide)
      [⟨"api", "api-A-1", "API task", Status.open_, 1, [⟨"web-W-1", DepKind.blocks⟩]⟩]
      (by decide)
      ⟨"api", "api-A-1", "API task", Status.open_, 1, [⟨"web-W-1", DepKind.blocks⟩]⟩
      (by decide)⟩

open Core in
/-- C3: in every plan the Layering Engine produces (for a universe
with unique final IDs), an issue with no open blocking dependency —
all `blocks` edges pointing at closed issues or dangling — sits in
track 0, and every open blocking dependency of an issue sits in a
strictly earlier track; concretely, with open `web-WEB-1` blocked on
open `api-API-1` the plan is two tracks, `api-API-1` first. -/
theorem claim_C3 :
    (∀ (u : List UIssue) (tracks : List (List UIssue)),
      (u.map UIssue.id).Nodup → computePlan u = Except.ok tracks →
      (∀ i ∈ u, openBlockingDeps u i = [] →
         ∃ h0 : 0 < tracks.length, i ∈ tracks.get ⟨0, h0⟩) ∧
      (∀ i ∈ u, ∀ d ∈ openBlockingDeps u i,
         ∀ ki kd, ∀ hki : ki < tracks.length, ∀ hkd : kd < tracks.length,
           i ∈ tracks.get ⟨ki, hki⟩ → (∃ j ∈ tracks.get ⟨kd, hkd⟩, j.id = d) → kd < ki)) ∧
    computePlan (mergeProjects
        [⟨"api", [⟨"API-1", "API Endpoint", Status.open_, 1, []⟩]⟩,
         ⟨"web", [⟨"WEB-1", "Web Dashboard", Status.open_, 1, [⟨"api-API-1", DepKind.blocks⟩]⟩]⟩]) =
      Except.ok [[⟨"api", "api-API-1", "API Endpoint", Status.open_, 1, []⟩],
        [⟨"web", "web-WEB-1", "Web Dashboard", Status.open_, 1, [⟨"api-API-1", DepKind.blocks⟩]⟩]] := by
  refine ⟨?_, by decide⟩
  intro u tracks hnd hok
  rw [computePlan] at hok
  obtain ⟨S1, S2, S3, S4⟩ := kahnGo_ok_sound u u.length [] u tracks (le_refl _) hok
  constructor
  · intro i hi hdeps
    apply S1 i hi
    rw [readyIn, hdeps]
    rfl
  · intro i hi d hd ki kd hki hkd hmemi hj
    obtain ⟨j, hjmem, hjid⟩ := hj
    obtain ⟨_, hdeps⟩ := S3 ki hki i hmemi
    rcases hdeps d hd with habs | ⟨k2, hk2, hk2lt, j2, hj2mem, hj2id⟩
    · exact absurd habs (List.not_mem_nil d)
    · have hndflat : ((tracks.flatMap (fun t => t)).map UIssue.id).Nodup :=
        ((S4.map UIssue.id).nodup_iff).mpr hnd
      have : kd = k2 := track_index_unique tracks hndflat kd k2 hkd hk2 j j2
        hjmem hj2mem (by rw [hjid, hj2id])
      omega

open Core in
/-- Witness for C3 on the two-project scenario universe: the issue
with no open blocking dependency is in track 0 of the concrete
plan. -/
theorem claim_C3_witness :
    ∃ h0 : 0 < ([[⟨"api", "api-API-1", "API Endpoint", Status.open_, 1, []⟩],
        [⟨"web", "web-WEB-1", "Web Dashboard", Status.open_, 1,
          [⟨"api-API-1", DepKind.blocks⟩]⟩]] : List (List UIssue)).length,
      (⟨"api", "api-API-1", "API Endpoint", Status.open_, 1, []⟩ : UIssue) ∈
        ([[⟨"api", "api-API-1", "API Endpoint", Status.open_, 1, []⟩],
          [⟨"web", "web-WEB-1", "Web Dashboard", Status.open_, 1,
            [⟨"api-API-1", DepKind.blocks⟩]⟩]] : List (List UIssue)).get ⟨0, h0⟩ :=
  ((claim_C3.1 (mergeProjects
        [⟨"api", [⟨"API-1", "API Endpoint", Status.open_, 1, []⟩]⟩,
         ⟨"web", [⟨"WEB-1", "Web Dashboard", Status.open_, 1, [⟨"api-API-1", DepKind.blocks⟩]⟩]⟩])
      [[⟨"api", "api-API-1", "API Endpoint", Status.open_, 1, []⟩],
        [⟨"web", "web-WEB-1", "Web Dashboard", Status.open_, 1, [⟨"api-API-1", DepKind.blocks⟩]⟩]]
      (by decide) (by decide)).1
    ⟨"api", "api-API-1", "API Endpoint", Status.open_, 1, []⟩ (by decide) (by decide))

open Core in
/-- C7: the triage open count equals exactly the number of non-closed
issues of the filtered universe, for every universe and every filter
token. -/
theorem claim_C7 (u : List UIssue) (tok : Option String) :
    (computeTriage u tok).openCount =
      ((filterUniverse tok u).filter fun i => !decide (i.status = Status.closed)).length :=
  computeTriage_openCount u tok

end BVClaims

end BV
